import Mathlib

/-!
Verification of `archive-generator.py` (Bulldog Inquirer archive index generator).

The program walks a directory tree and emits a JSON document describing its
hierarchy.  We embed the program shallowly:

* the filesystem snapshot seen by the scanner is a value of the inductive
  type `FS`: a directory's `os.listdir` either succeeds with a list of
  named entries or raises (`ScanError.permission` for `PermissionError`,
  `ScanError.other` for any other exception caught by the generic handler);
* `os.sep` is a parameter `sep : Char` (`'/'` on POSIX, `'\\'` on Windows);
* absolute paths are ordinary strings, `os.path.join` appends with the
  separator, and `os.path.relpath p root` (for `p` strictly inside `root`,
  the only way the program calls it) drops the `root ++ sep` prefix;
* Python's `str.replace('\\', '/')` with single-character pattern and
  replacement is a character map;
* Python's `list.sort()` on strings is a stable sort in ascending
  lexicographic code-point order, embedded as `List.insertionSort` over the
  code-point comparator `strLe`;
* `print` warnings become an explicit warning list returned next to the
  built node, in emission order.
-/

/-- Code-point comparison of character lists, as Python compares `str`
values: lexicographic, by Unicode code point. -/
def charListLe : List Char → List Char → Bool
  | [], _ => true
  | _ :: _, [] => false
  | a :: as, b :: bs => if a < b then true else if b < a then false else charListLe as bs

/-- Comparison `a <= b` on strings in Python's ordering (code-point lexicographic). -/
def strLe (a b : String) : Bool := charListLe a.data b.data

/-- The exception raised by `os.listdir`, as distinguished by the two
`except` clauses of `scan_directory`. -/
inductive ScanError where
  | permission : ScanError
  | other (msg : String) : ScanError
deriving DecidableEq

/-- A snapshot of one filesystem object, as classified by the scanner:
`os.path.isdir` holds exactly of `dir` values, `os.path.isfile` exactly of
`file` values, and `other` covers everything else (broken symlinks,
sockets, devices, ...).  A directory carries the outcome of `os.listdir`:
its named entries, or the exception listing raised. -/
inductive FS where
  | file : FS
  | other : FS
  | dir (listing : Except ScanError (List (String × FS))) : FS

/-- Model of `os.path.isdir` on a snapshot entry. -/
def FS.isDir : FS → Bool
  | FS.dir _ => true
  | _ => false

/-- Model of `os.path.isfile` on a snapshot entry. -/
def FS.isFile : FS → Bool
  | FS.file => true
  | _ => false

/-- A node of the produced tree: the dictionaries built by
`scan_directory`, with the `type` tag reflected in the constructor. -/
inductive Node where
  | folder (name : String) (children : List Node) : Node
  | file (name : String) (path : String) : Node

/-- The `name` field of a node. -/
def Node.name : Node → String
  | Node.folder n _ => n
  | Node.file n _ => n

/-- The `children` field of a node (`node.get("children", [])`). -/
def Node.children : Node → List Node
  | Node.folder _ cs => cs
  | Node.file _ _ => []

/-- Whether a node's `type` tag is `"folder"`. -/
def Node.isFolder : Node → Bool
  | Node.folder _ _ => true
  | Node.file _ _ => false

/-- Model of `os.path.join path item` for a relative `item`, with separator `sep`. -/
def osJoin (sep : Char) (a b : String) : String := a ++ sep.toString ++ b

/-- Model of `os.path.relpath p root` for a path `p` lying strictly inside `root`
(the only case the program exercises: `p` is built by joining entry names
under `root`): drop the `root ++ sep` prefix. -/
def relpath (p root : String) : String := String.mk (p.data.drop (root.data.length + 1))

/-- Python's `relative_path.replace('\\', '/')`: with a single-character
pattern and replacement this is a character map. -/
def normalizeSlashes (s : String) : String :=
  String.mk (s.data.map (fun c => if c = '\\' then '/' else c))

/-- The message printed by the `except PermissionError` handler. -/
def warnPermission (path : String) : String := "Warning: Permission denied for " ++ path

/-- The message printed by the generic `except Exception` handler. -/
def warnOther (path msg : String) : String :=
  "Warning: Error processing " ++ path ++ ": " ++ msg

/-- The warning `scan_directory` prints when listing `path` raises `e`. -/
def scanWarning (path : String) : ScanError → String
  | ScanError.permission => warnPermission path
  | ScanError.other m => warnOther path m

/-- The sorting relation of `folders.sort()`: the program sorts the listed
names and then rejoins each name to its path; since names within one
directory listing are distinct, this equals sorting the (name, entry) pairs
by name. -/
def nameLe (a b : String × FS) : Prop := strLe a.1 b.1 = true

instance : DecidableRel nameLe := fun a b => by unfold nameLe; infer_instance

/-- The sorting relation of `files.sort()`. -/
def strLeProp (a b : String) : Prop := strLe a b = true

instance : DecidableRel strLeProp := fun a b => by unfold strLeProp; infer_instance

/-- Embedding of `scan_directory(path, name)` of the source, returning the built node
together with the warnings printed during the call (in emission order).
`root` is the enclosing `root_folder_path`; `fs` is the snapshot of the
object at `path`.  On a listing exception the handler leaves `result` with
the children collected so far — necessarily none, since `os.listdir` is the
first statement of the `try` block — and one warning is printed.  The
`match` on non-directories mirrors that the program only ever calls
`scan_directory` on paths satisfying `os.path.isdir`.  Child directories
are scanned in sorted order; each child's node and warnings are produced by
its own recursive call, independent of its siblings. -/
def scan_directory (sep : Char) (root : String) (path : String) (name : String) (fs : FS) :
    Node × List String :=
  match fs with
  | FS.file => (Node.folder name [], [])
  | FS.other => (Node.folder name [], [])
  | FS.dir (Except.error e) => (Node.folder name [], [scanWarning path e])
  | FS.dir (Except.ok items) =>
      let folders := List.insertionSort nameLe (items.filter (fun it => it.2.isDir))
      let files := List.insertionSort strLeProp
        ((items.filter (fun it => it.2.isFile)).map Prod.fst)
      let scanned := folders.attach.map
        (fun it => scan_directory sep root (osJoin sep path it.1.1) it.1.1 it.1.2)
      let fileNodes := files.map (fun f =>
        Node.file f ("old-articles/" ++ normalizeSlashes (relpath (osJoin sep path f) root)))
      (Node.folder name ((scanned.map Prod.fst) ++ fileNodes),
       (scanned.map Prod.snd).flatten)
termination_by sizeOf fs
decreasing_by
  have hmem : it.1 ∈ items.filter (fun it => it.2.isDir) :=
    (List.perm_insertionSort nameLe _).mem_iff.mp it.2
  have hmem2 : it.1 ∈ items := List.mem_of_mem_filter hmem
  have h1 : sizeOf it.1.2 < sizeOf items := by
    calc sizeOf it.1.2 < sizeOf it.1 := by
          cases it.1; simp
      _ < sizeOf items := List.sizeOf_lt_of_mem hmem2
  simp only [FS.dir.sizeOf_spec, Except.ok.sizeOf_spec]
  omega

/-- Model of `os.path.basename`, for a path free of a trailing separator: the part
after the last separator. -/
def basename (sep : Char) (p : String) : String :=
  String.mk ((p.data.reverse.takeWhile (fun c => c ≠ sep)).reverse)

/-- Embedding of `generate_archive_index(root_folder_path)`: build the structure by
scanning the root with the fixed label `"old-articles"`.  (The source also
computes `folder_name = os.path.basename(root_folder_path)` but never uses
it, and prints the `count_files` total.)  Returns the structure and the
scan warnings. -/
def generate_archive_index (sep : Char) (root_folder_path : String) (fs : FS) :
    Node × List String :=
  let folder_name := basename sep root_folder_path
  let structure_ := scan_directory sep root_folder_path root_folder_path "old-articles" fs
  let _ := folder_name
  structure_

/-- Embedding of `count_files(node)` of the source: 1 for a file node, otherwise the sum
over `node.get("children", [])` of the recursive counts. -/
def count_files : Node → Nat
  | Node.file _ _ => 1
  | Node.folder _ cs => (cs.attach.map (fun c => count_files c.1)).sum
termination_by n => sizeOf n
decreasing_by
  have h1 : sizeOf c.1 < sizeOf cs := List.sizeOf_lt_of_mem c.2
  simp only [Node.folder.sizeOf_spec]
  omega

/-- Escape one character as `json.dump` does for the characters the
program can emit (quote and backslash; control-character escapes and the
cosmetic indentation of `indent=2` are elided — spec §4.3 declares
indentation non-contractual — and `ensure_ascii=False` keeps non-ASCII
characters literal). -/
def escapeJsonChar (c : Char) : String :=
  if c = '"' then "\\\"" else if c = '\\' then "\\\\" else String.singleton c

/-- A JSON string literal for `s`. -/
def jsonString (s : String) : String :=
  "\"" ++ String.join (s.data.map escapeJsonChar) ++ "\""

/-- Model of `json.dump` of a node: nested objects with field order
`name`/`type`/`children` for folders and `name`/`type`/`path` for files,
children arrays in insertion order. -/
def json_dump : Node → String
  | Node.file n p =>
      "\x7b\"name\": " ++ jsonString n ++ ", \"type\": \"file\", \"path\": "
        ++ jsonString p ++ "\x7d"
  | Node.folder n cs =>
      "\x7b\"name\": " ++ jsonString n ++ ", \"type\": \"folder\", \"children\": ["
        ++ String.intercalate ", " (cs.attach.map (fun c => json_dump c.1)) ++ "]\x7d"
termination_by n => sizeOf n
decreasing_by
  have h1 : sizeOf c.1 < sizeOf cs := List.sizeOf_lt_of_mem c.2
  simp only [Node.folder.sizeOf_spec]
  omega

/-- Embedding of `save_archive_index(structure, output_path)`: open the output path and
write the JSON encoding.  The filesystem write is abstracted as a function
`write : path → contents → Except String Unit` whose failure models the
`OSError` the `open`/`json.dump` calls may raise; the source wraps neither
in a `try`, so a failure propagates to the caller unchanged, and on success
the confirmation message is printed. -/
def save_archive_index (write : String → String → Except String Unit)
    (structure_ : Node) (output_path : String) : Except String String :=
  match write output_path (json_dump structure_) with
  | Except.error e => Except.error e
  | Except.ok _ => Except.ok ("Archive index saved to: " ++ output_path)

/-- The core of `main()` after the interactive prompts and the up-front
root validation (`os.path.exists` and `os.path.isdir` both passed — in the
snapshot model the root is a `FS.dir`): generate the structure, then save
it to the chosen output path.  Returns `save_archive_index`'s outcome. -/
def main_core (sep : Char) (root : String) (fs : FS)
    (write : String → String → Except String Unit) (output_path : String) :
    Except String String :=
  save_archive_index write (generate_archive_index sep root fs).1 output_path

/-! ### Spec-side checkers

These definitions follow the specification's words; the theorems relate
them to the embedded program. -/

/-- Join path components with a separator, the way a chain of
`os.path.join` steps renders a relative path (POSIX-style when
`sep = '/'`). -/
def joinSep (sep : Char) : List String → String
  | [] => ""
  | [c] => c
  | c :: cs => c ++ sep.toString ++ joinSep sep cs

/-- The name contains no backslash character.  (A backslash cannot occur
in a Windows file name; on POSIX it can, and such a name would be mangled
by the separator normalization, so the path claims assume it away.) -/
def noBackslash (s : String) : Bool := s.data.all (fun c => c ≠ '\\')

/-- Every entry name in the snapshot is free of backslashes. -/
def FS.namesClean : FS → Bool
  | FS.file => true
  | FS.other => true
  | FS.dir (Except.error _) => true
  | FS.dir (Except.ok items) =>
      items.attach.all (fun it => noBackslash it.1.1 && FS.namesClean it.1.2)
termination_by fs => sizeOf fs
decreasing_by
  have h2 : sizeOf it.1.2 < sizeOf items := by
    calc sizeOf it.1.2 < sizeOf it.1 := by
          cases it.1; simp
      _ < sizeOf items := List.sizeOf_lt_of_mem it.2
  simp only [FS.dir.sizeOf_spec, Except.ok.sizeOf_spec]
  omega

/-- Spec check for claim C1: every file node reachable from a node sitting
at relative position `comps` (the component list from the scan root; `[]`
for the root node itself) has `path` equal to `"old-articles/"` followed by
the POSIX-style relative path of the file.  A folder child named `d`
extends the position by `d`; a file child keeps its parent's position. -/
def filePathsOk (comps : List String) : Node → Bool
  | Node.file n p => p == "old-articles/" ++ joinSep '/' (comps ++ [n])
  | Node.folder _ cs =>
      cs.attach.all (fun c =>
        filePathsOk (comps ++ (match c.1 with
          | Node.folder d _ => [d]
          | Node.file _ _ => [])) c.1)
termination_by n => sizeOf n
decreasing_by
  have h1 : sizeOf c.1 < sizeOf cs := List.sizeOf_lt_of_mem c.2
  simp only [Node.folder.sizeOf_spec]
  omega

/-- The strings are in ascending lexicographic (code-point) order. -/
def namesSortedLe : List String → Bool
  | [] => true
  | [_] => true
  | a :: b :: r => strLe a b && namesSortedLe (b :: r)

/-- Spec check for claim C2 at one folder: all folder-type entries precede
all file-type entries, and each of the two groups is in ascending
lexicographic order by name. -/
def childrenGroupedSorted (cs : List Node) : Bool :=
  (cs.dropWhile Node.isFolder).all (fun c => !c.isFolder)
    && namesSortedLe ((cs.filter Node.isFolder).map Node.name)
    && namesSortedLe ((cs.filter (fun c => !c.isFolder)).map Node.name)

/-- Spec check for claim C2: `childrenGroupedSorted` holds of every folder
node reachable from the given node. -/
def treeOrdered : Node → Bool
  | Node.file _ _ => true
  | Node.folder _ cs =>
      childrenGroupedSorted cs && cs.attach.all (fun c => treeOrdered c.1)
termination_by n => sizeOf n
decreasing_by
  have h1 : sizeOf c.1 < sizeOf cs := List.sizeOf_lt_of_mem c.2
  simp only [Node.folder.sizeOf_spec]
  omega

/-- All file-type nodes reachable from a node, in depth-first order: the
specification's notion of what `count_files` counts. -/
def collectFiles : Node → List Node
  | Node.file n p => [Node.file n p]
  | Node.folder _ cs => (cs.attach.map (fun c => collectFiles c.1)).flatten
termination_by n => sizeOf n
decreasing_by
  have h1 : sizeOf c.1 < sizeOf cs := List.sizeOf_lt_of_mem c.2
  simp only [Node.folder.sizeOf_spec]
  omega

/-! ### Helper lemmas: eliminating `attach`, unfolding equations -/

theorem list_attach_map {α β : Type} (l : List α) (f : {x // x ∈ l} → β) (g : α → β)
    (h : ∀ x hx, f ⟨x, hx⟩ = g x) : l.attach.map f = l.map g := by
  rw [List.map_attach]
  calc l.pmap (fun a ha => f ⟨a, ha⟩) _
      = l.pmap (fun a _ => g a) (fun a ha => ha) := by
        apply List.pmap_congr_left
        intro a ha _ _
        exact h a ha
    _ = l.map g := List.pmap_eq_map _ g l _

theorem list_attach_all {α : Type} (l : List α) (f : {x // x ∈ l} → Bool) (g : α → Bool)
    (h : ∀ x hx, f ⟨x, hx⟩ = g x) : l.attach.all f = l.all g := by
  apply Bool.eq_iff_iff.mpr
  simp only [List.all_eq_true, List.mem_attach, true_implies, Subtype.forall]
  constructor
  · intro H x hx
    rw [← h x hx]
    exact H x hx
  · intro H x hx
    rw [h x hx]
    exact H x hx

theorem scan_directory_ok (sep : Char) (root path name : String)
    (items : List (String × FS)) :
    scan_directory sep root path name (FS.dir (Except.ok items)) =
      (Node.folder name
        (((List.insertionSort nameLe (items.filter (fun it => it.2.isDir))).map
            (fun it => (scan_directory sep root (osJoin sep path it.1) it.1 it.2).1)) ++
          ((List.insertionSort strLeProp
              ((items.filter (fun it => it.2.isFile)).map Prod.fst)).map
            (fun f => Node.file f
              ("old-articles/" ++ normalizeSlashes (relpath (osJoin sep path f) root))))),
        (((List.insertionSort nameLe (items.filter (fun it => it.2.isDir))).map
            (fun it => (scan_directory sep root (osJoin sep path it.1) it.1 it.2).2)).flatten)) := by
  rw [scan_directory]
  simp only [List.map_map]
  rw [list_attach_map _ _
      (fun it => (scan_directory sep root (osJoin sep path it.1) it.1 it.2).1)
      (fun x hx => rfl),
    list_attach_map _ _
      (fun it => (scan_directory sep root (osJoin sep path it.1) it.1 it.2).2)
      (fun x hx => rfl)]

theorem namesClean_ok (items : List (String × FS)) :
    FS.namesClean (FS.dir (Except.ok items)) =
      items.all (fun it => noBackslash it.1 && FS.namesClean it.2) := by
  rw [FS.namesClean]
  exact list_attach_all items _ (fun it => noBackslash it.1 && FS.namesClean it.2)
    (fun x hx => rfl)

theorem filePathsOk_folder (comps : List String) (m : String) (cs : List Node) :
    filePathsOk comps (Node.folder m cs) =
      cs.all (fun c =>
        filePathsOk (comps ++ (match c with
          | Node.folder d _ => [d]
          | Node.file _ _ => [])) c) := by
  rw [filePathsOk]
  apply list_attach_all
  intro x hx
  rfl

theorem treeOrdered_folder (m : String) (cs : List Node) :
    treeOrdered (Node.folder m cs) =
      (childrenGroupedSorted cs && cs.all treeOrdered) := by
  rw [treeOrdered]
  congr 1
  exact list_attach_all cs _ treeOrdered (fun x hx => rfl)

theorem collectFiles_folder (m : String) (cs : List Node) :
    collectFiles (Node.folder m cs) = (cs.map collectFiles).flatten := by
  rw [collectFiles]
  rw [list_attach_map _ _ collectFiles (fun x hx => rfl)]

theorem count_files_folder (m : String) (cs : List Node) :
    count_files (Node.folder m cs) = (cs.map count_files).sum := by
  rw [count_files]
  rw [list_attach_map _ _ count_files (fun x hx => rfl)]

theorem json_dump_folder (m : String) (cs : List Node) :
    json_dump (Node.folder m cs) =
      "\x7b\"name\": " ++ jsonString m ++ ", \"type\": \"folder\", \"children\": ["
        ++ String.intercalate ", " (cs.map json_dump) ++ "]\x7d" := by
  rw [json_dump]
  rw [list_attach_map _ _ json_dump (fun x hx => rfl)]

/-! ### The code-point order: totality and transitivity -/

theorem charListLe_total : ∀ a b : List Char, charListLe a b = true ∨ charListLe b a = true
  | [], _ => Or.inl rfl
  | _ :: _, [] => Or.inr rfl
  | a :: as, b :: bs => by
      rcases lt_trichotomy a b with h | h | h
      · left; simp [charListLe, h]
      · subst h
        rcases charListLe_total as bs with ih | ih
        · left; simp [charListLe, ih]
        · right; simp [charListLe, ih]
      · right; simp [charListLe, h]

theorem charListLe_trans :
    ∀ {a b c : List Char}, charListLe a b = true → charListLe b c = true →
      charListLe a c = true
  | [], _, _, _, _ => rfl
  | _ :: _, [], _, hab, _ => by simp [charListLe] at hab
  | _ :: _, _ :: _, [], _, hbc => by simp [charListLe] at hbc
  | a :: as, b :: bs, c :: cs, hab, hbc => by
      simp only [charListLe] at hab hbc ⊢
      by_cases h1 : a < b
      · by_cases h2 : b < c
        · simp [lt_trans h1 h2]
        · by_cases h3 : c < b
          · simp only [if_neg (lt_asymm h3), if_pos h3] at hbc
            exact Bool.noConfusion hbc
          · have hcb : b = c := le_antisymm (not_lt.mp h3) (not_lt.mp h2)
            subst hcb
            simp [h1]
      · by_cases h2 : b < a
        · simp only [if_neg (lt_asymm h2), if_pos h2] at hab
          exact Bool.noConfusion hab
        · have hba : a = b := le_antisymm (not_lt.mp h2) (not_lt.mp h1)
          subst hba
          simp only [lt_irrefl, if_false] at hab
          by_cases h3 : a < c
          · simp [h3]
          · by_cases h4 : c < a
            · simp only [if_neg h3, if_pos h4] at hbc
              exact Bool.noConfusion hbc
            · simp only [if_neg h3, if_neg h4] at hbc ⊢
              exact charListLe_trans hab hbc

instance : IsTotal String strLeProp :=
  ⟨fun a b => charListLe_total a.data b.data⟩

instance : IsTrans String strLeProp :=
  ⟨fun _ _ _ hab hbc => charListLe_trans hab hbc⟩

instance : IsTotal (String × FS) nameLe :=
  ⟨fun a b => charListLe_total a.1.data b.1.data⟩

instance : IsTrans (String × FS) nameLe :=
  ⟨fun _ _ _ hab hbc => charListLe_trans hab hbc⟩

/-! ### Path arithmetic -/

/-- The absolute path of the object at relative position `comps` under
`root`: the chain of `os.path.join` steps the scanner performs. -/
def joinAll (sep : Char) (root : String) (comps : List String) : String :=
  comps.foldl (osJoin sep) root

theorem string_data_ext {a b : String} (h : a.data = b.data) : a = b := by
  cases a
  cases b
  exact congrArg String.mk h

theorem char_toString_data (c : Char) : (Char.toString c).data = [c] := rfl

theorem joinAll_append_one (sep : Char) (root : String) (cs : List String) (c : String) :
    joinAll sep root (cs ++ [c]) = osJoin sep (joinAll sep root cs) c := by
  simp [joinAll, List.foldl_append]

theorem joinAll_cons_eq (sep : Char) :
    ∀ (cs : List String) (root c : String),
      joinAll sep root (c :: cs) = root ++ sep.toString ++ joinSep sep (c :: cs)
  | [], root, c => by simp [joinAll, osJoin, joinSep]
  | c2 :: cs2, root, c => by
      have ih := joinAll_cons_eq sep cs2 (osJoin sep root c) c2
      have h1 : joinAll sep root (c :: c2 :: cs2) = joinAll sep (osJoin sep root c) (c2 :: cs2) := by
        simp [joinAll]
      rw [h1, ih]
      show osJoin sep root c ++ sep.toString ++ joinSep sep (c2 :: cs2) =
        root ++ sep.toString ++ (c ++ sep.toString ++ joinSep sep (c2 :: cs2))
      simp [osJoin, String.append_assoc]

theorem relpath_root_append (sep : Char) (root x : String) :
    relpath (root ++ sep.toString ++ x) root = x := by
  apply string_data_ext
  show ((root ++ sep.toString ++ x).data.drop (root.data.length + 1)) = x.data
  rw [String.data_append, String.data_append, char_toString_data]
  have h1 : root.data ++ [sep] ++ x.data = (root.data ++ [sep]) ++ x.data := by
    simp [List.append_assoc]
  have h2 : (root.data ++ [sep]).length = root.data.length + 1 := by simp
  rw [h1, ← h2, List.drop_left]

theorem relpath_joinAll (sep : Char) (root : String) (c : String) (cs : List String) :
    relpath (joinAll sep root (c :: cs)) root = joinSep sep (c :: cs) := by
  rw [joinAll_cons_eq, relpath_root_append]

theorem normalizeSlashes_append (a b : String) :
    normalizeSlashes (a ++ b) = normalizeSlashes a ++ normalizeSlashes b := by
  apply string_data_ext
  show ((a ++ b).data.map _) = (normalizeSlashes a ++ normalizeSlashes b).data
  rw [String.data_append, List.map_append]
  rfl

theorem normalizeSlashes_clean {s : String} (h : noBackslash s = true) :
    normalizeSlashes s = s := by
  apply string_data_ext
  show s.data.map _ = s.data
  have h2 : ∀ c ∈ s.data, c ≠ '\\' := by
    simpa [noBackslash, List.all_eq_true] using h
  calc s.data.map (fun c => if c = '\\' then '/' else c)
      = s.data.map id := by
        apply List.map_congr_left
        intro c hc
        simp [h2 c hc]
    _ = s.data := List.map_id s.data

theorem normalizeSlashes_sep {sep : Char} (h : sep = '/' ∨ sep = '\\') :
    normalizeSlashes sep.toString = "/" := by
  rcases h with h | h <;> subst h <;> decide

theorem normalizeSlashes_joinSep {sep : Char} (hsep : sep = '/' ∨ sep = '\\') :
    ∀ (cs : List String), (∀ c ∈ cs, noBackslash c = true) →
      normalizeSlashes (joinSep sep cs) = joinSep '/' cs
  | [], _ => by
      apply string_data_ext
      rfl
  | [c], h => by
      simp only [joinSep]
      exact normalizeSlashes_clean (h c (by simp))
  | c :: c2 :: cs2, h => by
      have ih := normalizeSlashes_joinSep hsep (c2 :: cs2)
        (fun x hx => h x (List.mem_cons_of_mem c hx))
      show normalizeSlashes (c ++ sep.toString ++ joinSep sep (c2 :: cs2)) =
        c ++ ('/').toString ++ joinSep '/' (c2 :: cs2)
      rw [normalizeSlashes_append, normalizeSlashes_append]
      rw [normalizeSlashes_clean (h c (by simp)), normalizeSlashes_sep hsep, ih]
      rfl

/-! ### Induction principles and membership lemmas -/

/-- Induction over snapshots with the hypothesis available for every entry
of a successful listing. -/
theorem FS.memInduction (motive : FS → Prop) (hfile : motive FS.file)
    (hother : motive FS.other) (herr : ∀ e, motive (FS.dir (Except.error e)))
    (hok : ∀ items, (∀ it ∈ items, motive it.2) → motive (FS.dir (Except.ok items))) :
    ∀ fs, motive fs
  | FS.file => hfile
  | FS.other => hother
  | FS.dir (Except.error e) => herr e
  | FS.dir (Except.ok items) =>
      hok items (fun it hmem =>
        FS.memInduction motive hfile hother herr hok it.2)
termination_by fs => sizeOf fs
decreasing_by
  have h1 : sizeOf it.2 < sizeOf items := by
    calc sizeOf it.2 < sizeOf it := by
          cases it; simp
      _ < sizeOf items := List.sizeOf_lt_of_mem hmem
  simp only [FS.dir.sizeOf_spec, Except.ok.sizeOf_spec]
  omega

/-- Induction over produced trees with the hypothesis available for every
child of a folder. -/
theorem Node.memberInduction (motive : Node → Prop)
    (hfile : ∀ n p, motive (Node.file n p))
    (hfolder : ∀ n cs, (∀ c ∈ cs, motive c) → motive (Node.folder n cs)) :
    ∀ node, motive node
  | Node.file n p => hfile n p
  | Node.folder n cs =>
      hfolder n cs (fun c hmem =>
        Node.memberInduction motive hfile hfolder c)
termination_by n => sizeOf n
decreasing_by
  have h1 : sizeOf c < sizeOf cs := List.sizeOf_lt_of_mem hmem
  simp only [Node.folder.sizeOf_spec]
  omega

theorem mem_sortedFolders {items : List (String × FS)} {it : String × FS}
    (h : it ∈ List.insertionSort nameLe (items.filter (fun it => it.2.isDir))) :
    it ∈ items ∧ it.2.isDir = true := by
  have h2 := (List.perm_insertionSort nameLe _).mem_iff.mp h
  exact List.mem_filter.mp h2

theorem mem_sortedFiles {items : List (String × FS)} {f : String}
    (h : f ∈ List.insertionSort strLeProp
      ((items.filter (fun it => it.2.isFile)).map Prod.fst)) :
    ∃ t, (f, t) ∈ items ∧ FS.isFile t = true := by
  have h2 := (List.perm_insertionSort strLeProp _).mem_iff.mp h
  rcases List.mem_map.mp h2 with ⟨⟨n, t⟩, hmem, rfl⟩
  have h3 := List.mem_filter.mp hmem
  exact ⟨t, h3.1, h3.2⟩

/-- Whatever the snapshot, `scan_directory` returns a folder node carrying
the name it was given. -/
theorem scan_directory_shape (sep : Char) (root path name : String) (fs : FS) :
    ∃ cs, (scan_directory sep root path name fs).1 = Node.folder name cs := by
  cases fs with
  | file => exact ⟨[], by rw [scan_directory]⟩
  | other => exact ⟨[], by rw [scan_directory]⟩
  | dir listing =>
      cases listing with
      | error e => exact ⟨[], by rw [scan_directory]⟩
      | ok items => exact ⟨_, by rw [scan_directory_ok]⟩

theorem namesClean_entry {items : List (String × FS)} {it : String × FS}
    (hclean : FS.namesClean (FS.dir (Except.ok items)) = true) (hmem : it ∈ items) :
    noBackslash it.1 = true ∧ FS.namesClean it.2 = true := by
  rw [namesClean_ok, List.all_eq_true] at hclean
  have h := hclean it hmem
  exact Bool.and_eq_true_iff.mp h

theorem relpath_joinAll_ne (sep : Char) (root : String) (cs : List String) (h : cs ≠ []) :
    relpath (joinAll sep root cs) root = joinSep sep cs := by
  cases cs with
  | nil => exact absurd rfl h
  | cons c cs2 => exact relpath_joinAll sep root c cs2

/-- Master lemma for the path claims: scanning a clean snapshot that sits
at relative position `comps` under the root produces a tree whose file
paths all have the prescribed `old-articles/` + POSIX-relative form. -/
theorem scan_filePathsOk (sep : Char) (hsep : sep = '/' ∨ sep = '\\') (root : String)
    (fs : FS) :
    ∀ (comps : List String) (name : String),
      FS.namesClean fs = true → (∀ c ∈ comps, noBackslash c = true) →
      filePathsOk comps (scan_directory sep root (joinAll sep root comps) name fs).1 = true := by
  induction fs using FS.memInduction with
  | hfile =>
      intro comps name _ _
      rw [scan_directory, filePathsOk_folder]
      rfl
  | hother =>
      intro comps name _ _
      rw [scan_directory, filePathsOk_folder]
      rfl
  | herr e =>
      intro comps name _ _
      rw [scan_directory, filePathsOk_folder]
      rfl
  | hok items ih =>
      intro comps name hclean hcomps
      rw [scan_directory_ok, filePathsOk_folder, List.all_eq_true]
      intro c hc
      rcases List.mem_append.mp hc with hcf | hcf
      · rcases List.mem_map.mp hcf with ⟨it, hit, rfl⟩
        rcases mem_sortedFolders hit with ⟨hitems, _⟩
        rcases scan_directory_shape sep root
          (osJoin sep (joinAll sep root comps) it.1) it.1 it.2 with ⟨cs, hshape⟩
        simp only [hshape]
        rw [← hshape, ← joinAll_append_one]
        apply ih it hitems
        · exact (namesClean_entry hclean hitems).2
        · intro x hx
          rcases List.mem_append.mp hx with hx | hx
          · exact hcomps x hx
          · rw [List.mem_singleton.mp hx]
            exact (namesClean_entry hclean hitems).1
      · rcases List.mem_map.mp hcf with ⟨f, hf, rfl⟩
        rcases mem_sortedFiles hf with ⟨t, hitems, _⟩
        have hfclean : noBackslash f = true :=
          (@namesClean_entry items (f, t) hclean hitems).1
        simp only [filePathsOk, List.append_nil, beq_iff_eq]
        have h1 : osJoin sep (joinAll sep root comps) f = joinAll sep root (comps ++ [f]) :=
          (joinAll_append_one sep root comps f).symm
        rw [h1, relpath_joinAll_ne sep root (comps ++ [f]) (by simp)]
        rw [normalizeSlashes_joinSep hsep (comps ++ [f])]
        intro x hx
        rcases List.mem_append.mp hx with hx | hx
        · exact hcomps x hx
        · rw [List.mem_singleton.mp hx]
          exact hfclean

/-- Master lemma for claim C9: the built node depends only on the snapshot
and on the relative position, never on the root path string (which enters
only through `os.path.relpath`, where it cancels). -/
theorem scan_root_independent (sep : Char) (root1 root2 : String) (fs : FS) :
    ∀ (comps : List String) (name : String),
      (scan_directory sep root1 (joinAll sep root1 comps) name fs).1 =
      (scan_directory sep root2 (joinAll sep root2 comps) name fs).1 := by
  induction fs using FS.memInduction with
  | hfile =>
      intro comps name
      rw [scan_directory, scan_directory]
  | hother =>
      intro comps name
      rw [scan_directory, scan_directory]
  | herr e =>
      intro comps name
      rw [scan_directory, scan_directory]
  | hok items ih =>
      intro comps name
      rw [scan_directory_ok, scan_directory_ok]
      simp only []
      congr 1
      congr 1
      · apply List.map_congr_left
        intro it hit
        have h := ih it (mem_sortedFolders hit).1 (comps ++ [it.1]) it.1
        rw [joinAll_append_one, joinAll_append_one] at h
        exact h
      · apply List.map_congr_left
        intro f hf
        have h1 : relpath (osJoin sep (joinAll sep root1 comps) f) root1 =
            joinSep sep (comps ++ [f]) := by
          rw [← joinAll_append_one]
          exact relpath_joinAll_ne sep root1 (comps ++ [f]) (by simp)
        have h2 : relpath (osJoin sep (joinAll sep root2 comps) f) root2 =
            joinSep sep (comps ++ [f]) := by
          rw [← joinAll_append_one]
          exact relpath_joinAll_ne sep root2 (comps ++ [f]) (by simp)
        rw [h1, h2]

/-! ### Ordering machinery for claim C2 -/

theorem namesSortedLe_of_pairwise :
    ∀ {l : List String}, List.Pairwise strLeProp l → namesSortedLe l = true
  | [], _ => rfl
  | [_], _ => rfl
  | a :: b :: r, h => by
      have h1 := List.pairwise_cons.mp h
      have hab : strLe a b = true := h1.1 b (by simp)
      rw [namesSortedLe, hab, namesSortedLe_of_pairwise h1.2]
      rfl

theorem dropWhile_append_all {α : Type} (p : α → Bool) (A B : List α)
    (h : ∀ a ∈ A, p a = true) :
    List.dropWhile p (A ++ B) = List.dropWhile p B := by
  induction A with
  | nil => rfl
  | cons a A ihA =>
      rw [List.cons_append, List.dropWhile_cons, if_pos (h a (by simp))]
      exact ihA (fun x hx => h x (by simp [hx]))

theorem dropWhile_all_false {α : Type} (p : α → Bool) (B : List α)
    (h : ∀ b ∈ B, p b = false) :
    List.dropWhile p B = B := by
  cases B with
  | nil => rfl
  | cons b B =>
      rw [List.dropWhile_cons, if_neg (by simp [h b (by simp)])]

theorem scan_directory_name (sep : Char) (root path name : String) (fs : FS) :
    ((scan_directory sep root path name fs).1).name = name := by
  rcases scan_directory_shape sep root path name fs with ⟨cs, h⟩
  rw [h]
  rfl

theorem scan_directory_isFolder (sep : Char) (root path name : String) (fs : FS) :
    ((scan_directory sep root path name fs).1).isFolder = true := by
  rcases scan_directory_shape sep root path name fs with ⟨cs, h⟩
  rw [h]
  rfl

/-- Master lemma for claim C2: every folder of a scanned tree lists its
folder children first, then its file children, each group sorted by
name. -/
theorem scan_treeOrdered (sep : Char) (root : String) (fs : FS) :
    ∀ (path name : String), treeOrdered (scan_directory sep root path name fs).1 = true := by
  induction fs using FS.memInduction with
  | hfile =>
      intro path name
      rw [scan_directory, treeOrdered_folder]
      rfl
  | hother =>
      intro path name
      rw [scan_directory, treeOrdered_folder]
      rfl
  | herr e =>
      intro path name
      rw [scan_directory, treeOrdered_folder]
      rfl
  | hok items ih =>
      intro path name
      rw [scan_directory_ok, treeOrdered_folder, Bool.and_eq_true]
      set sortedFolders := List.insertionSort nameLe (items.filter (fun it => it.2.isDir))
        with hsf
      set sortedFiles := List.insertionSort strLeProp
        ((items.filter (fun it => it.2.isFile)).map Prod.fst) with hsfile
      set A := sortedFolders.map
        (fun it => (scan_directory sep root (osJoin sep path it.1) it.1 it.2).1) with hA
      set B := sortedFiles.map
        (fun f => Node.file f
          ("old-articles/" ++ normalizeSlashes (relpath (osJoin sep path f) root))) with hB
      have hAfolder : ∀ a ∈ A, a.isFolder = true := by
        intro a ha
        rcases List.mem_map.mp ha with ⟨it, _, rfl⟩
        exact scan_directory_isFolder sep root (osJoin sep path it.1) it.1 it.2
      have hBfile : ∀ b ∈ B, b.isFolder = false := by
        intro b hb
        rcases List.mem_map.mp hb with ⟨f, _, rfl⟩
        rfl
      constructor
      · rw [childrenGroupedSorted, Bool.and_eq_true, Bool.and_eq_true]
        refine ⟨⟨?_, ?_⟩, ?_⟩
        · rw [dropWhile_append_all _ A B hAfolder, dropWhile_all_false _ B hBfile,
            List.all_eq_true]
          intro b hb
          simp [hBfile b hb]
        · have hfilter : (A ++ B).filter Node.isFolder = A := by
            rw [List.filter_append, List.filter_eq_self.mpr hAfolder,
              List.filter_eq_nil_iff.mpr (by intro b hb; simp [hBfile b hb])]
            exact List.append_nil A
          rw [hfilter]
          have hnames : A.map Node.name = sortedFolders.map Prod.fst := by
            rw [hA, List.map_map]
            apply List.map_congr_left
            intro it _
            exact scan_directory_name sep root (osJoin sep path it.1) it.1 it.2
          rw [hnames]
          apply namesSortedLe_of_pairwise
          exact (List.sorted_insertionSort nameLe _).map Prod.fst (fun a b hab => hab)
        · have hfilter : (A ++ B).filter (fun c => !c.isFolder) = B := by
            rw [List.filter_append,
              List.filter_eq_nil_iff.mpr (by intro a ha; simp [hAfolder a ha]),
              List.filter_eq_self.mpr (by intro b hb; simp [hBfile b hb])]
            exact List.nil_append B
          rw [hfilter]
          have hnames : B.map Node.name = sortedFiles := by
            rw [hB, List.map_map]
            have : (Node.name ∘ fun f => Node.file f
                ("old-articles/" ++ normalizeSlashes (relpath (osJoin sep path f) root)))
                = id := by
              funext f
              rfl
            rw [this, List.map_id]
          rw [hnames]
          apply namesSortedLe_of_pairwise
          exact List.sorted_insertionSort strLeProp _
      · rw [List.all_eq_true]
        intro c hc
        rcases List.mem_append.mp hc with hcf | hcf
        · rcases List.mem_map.mp hcf with ⟨it, hit, rfl⟩
          exact ih it (mem_sortedFolders hit).1 (osJoin sep path it.1) it.1
        · rcases List.mem_map.mp hcf with ⟨f, _, rfl⟩
          rw [treeOrdered]

/-! ### Counter, error isolation and skipping lemmas -/

theorem count_files_eq_collect (node : Node) :
    count_files node = (collectFiles node).length := by
  induction node using Node.memberInduction with
  | hfile n p =>
      rw [count_files, collectFiles]
      rfl
  | hfolder n cs ih =>
      rw [count_files_folder, collectFiles_folder, List.length_flatten, List.map_map]
      apply congrArg List.sum
      apply List.map_congr_left
      intro c hc
      exact ih c hc

/-- Scanning a directory whose non-directory, non-file entries have been
removed gives exactly the same node and the same warnings. -/
theorem scan_directory_skips_others (sep : Char) (root path name : String)
    (items : List (String × FS)) :
    scan_directory sep root path name
        (FS.dir (Except.ok (items.filter (fun it => it.2.isDir || it.2.isFile)))) =
      scan_directory sep root path name (FS.dir (Except.ok items)) := by
  rw [scan_directory_ok, scan_directory_ok]
  have h1 : (items.filter (fun it => it.2.isDir || it.2.isFile)).filter
      (fun it => it.2.isDir) = items.filter (fun it => it.2.isDir) := by
    rw [List.filter_filter]
    apply List.filter_congr
    intro x _
    cases x.2 <;> rfl
  have h2 : (items.filter (fun it => it.2.isDir || it.2.isFile)).filter
      (fun it => it.2.isFile) = items.filter (fun it => it.2.isFile) := by
    rw [List.filter_filter]
    apply List.filter_congr
    intro x _
    cases x.2 <;> rfl
  rw [h1, h2]

/-- The failing-subdirectory behaviour, isolated: a child directory whose
listing raises appears as an empty folder node, its warning is printed, and
every sibling directory's subtree is the same node its own independent scan
produces. -/
theorem scan_directory_error_isolated (sep : Char) (root path name : String)
    (items : List (String × FS)) (d : String) (e : ScanError)
    (hmem : (d, FS.dir (Except.error e)) ∈ items) :
    Node.folder d [] ∈
      ((scan_directory sep root path name (FS.dir (Except.ok items))).1).children ∧
    scanWarning (osJoin sep path d) e ∈
      (scan_directory sep root path name (FS.dir (Except.ok items))).2 ∧
    (∀ it ∈ items, it.2.isDir = true →
      (scan_directory sep root (osJoin sep path it.1) it.1 it.2).1 ∈
        ((scan_directory sep root path name (FS.dir (Except.ok items))).1).children) := by
  rw [scan_directory_ok]
  simp only [Node.children]
  have hsortmem : ∀ it ∈ items, it.2.isDir = true →
      it ∈ List.insertionSort nameLe (items.filter (fun it => it.2.isDir)) := by
    intro it hit hdir
    exact (List.perm_insertionSort nameLe _).mem_iff.mpr (List.mem_filter.mpr ⟨hit, hdir⟩)
  refine ⟨?_, ?_, ?_⟩
  · apply List.mem_append_left
    apply List.mem_map.mpr
    refine ⟨(d, FS.dir (Except.error e)), hsortmem _ hmem rfl, ?_⟩
    rw [scan_directory]
  · apply List.mem_flatten.mpr
    refine ⟨[scanWarning (osJoin sep path d) e], ?_, by simp⟩
    apply List.mem_map.mpr
    refine ⟨(d, FS.dir (Except.error e)), hsortmem _ hmem rfl, ?_⟩
    rw [scan_directory]
  · intro it hit hdir
    apply List.mem_append_left
    exact List.mem_map.mpr ⟨it, hsortmem it hit hdir, rfl⟩

/-- When every write succeeds, the saved run reports success for the chosen
output path. -/
theorem main_core_ok (sep : Char) (root : String) (fs : FS)
    (write : String → String → Except String Unit) (outPath : String)
    (hw : ∀ p c, write p c = Except.ok ()) :
    main_core sep root fs write outPath =
      Except.ok ("Archive index saved to: " ++ outPath) := by
  rw [main_core, save_archive_index, hw]

/-- Every node reachable from a node (itself included), in depth-first
order. -/
def allNodes : Node → List Node
  | Node.file n p => [Node.file n p]
  | Node.folder n cs => Node.folder n cs :: (cs.attach.map (fun c => allNodes c.1)).flatten
termination_by n => sizeOf n
decreasing_by
  have h1 : sizeOf c.1 < sizeOf cs := List.sizeOf_lt_of_mem c.2
  simp only [Node.folder.sizeOf_spec]
  omega

theorem allNodes_folder (m : String) (cs : List Node) :
    allNodes (Node.folder m cs) = Node.folder m cs :: (cs.map allNodes).flatten := by
  rw [allNodes]
  rw [list_attach_map _ _ allNodes (fun x hx => rfl)]

/-- The counter `count_files` counts exactly the file-type reachable nodes: it equals
the number of non-folder nodes among all reachable nodes. -/
theorem count_files_counts_files (node : Node) :
    count_files node = ((allNodes node).filter (fun c => !c.isFolder)).length := by
  induction node using Node.memberInduction with
  | hfile n p =>
      rw [count_files, allNodes]
      rfl
  | hfolder n cs ih =>
      rw [count_files_folder, allNodes_folder]
      have h1 : (Node.folder n cs :: (cs.map allNodes).flatten).filter
          (fun c => !c.isFolder) = ((cs.map allNodes).flatten).filter
          (fun c => !c.isFolder) := by
        rw [List.filter_cons]
        simp [Node.isFolder]
      rw [h1, List.filter_flatten, List.length_flatten, List.map_map, List.map_map]
      apply congrArg List.sum
      apply List.map_congr_left
      intro c hc
      exact ih c hc

/-! ## The claims -/

/-- C1 (amended): with a host separator of `/` or `\` and a snapshot none
of whose entry names contains a backslash, every File node of the produced
tree has `path` equal to `"old-articles/"` followed by the POSIX-style
relative path of the file from the scan root, regardless of the node's
depth and of the separator convention. -/
theorem claim_C1 (sep : Char) (root : String) (fs : FS)
    (hsep : sep = '/' ∨ sep = '\\') (hclean : FS.namesClean fs = true) :
    filePathsOk [] (generate_archive_index sep root fs).1 = true := by
  have h := scan_filePathsOk sep hsep root fs [] "old-articles" hclean
    (fun c hc => absurd hc (List.not_mem_nil c))
  simpa only [generate_archive_index, joinAll, List.foldl_nil] using h

/-- Witness for C1 at the specification's §6 example tree. -/
theorem claim_C1_witness :
    (('/' : Char) = '/' ∨ ('/' : Char) = '\\') ∧
    FS.namesClean (FS.dir (Except.ok
      [("News", FS.dir (Except.ok [("story.txt", FS.file)])),
       ("index.html", FS.file)])) = true ∧
    filePathsOk [] (generate_archive_index '/' "/home/u/Old Articles"
      (FS.dir (Except.ok
        [("News", FS.dir (Except.ok [("story.txt", FS.file)])),
         ("index.html", FS.file)]))).1 = true := by
  have hclean : FS.namesClean (FS.dir (Except.ok
      [("News", FS.dir (Except.ok [("story.txt", FS.file)])),
       ("index.html", FS.file)])) = true := by
    simp +decide [namesClean_ok, FS.namesClean, noBackslash]
  exact ⟨Or.inl rfl, hclean,
    claim_C1 '/' "/home/u/Old Articles" _ (Or.inl rfl) hclean⟩

/-- C1 fails as literally stated: on a POSIX host (`sep = '/'`) a file
name containing a backslash is itself rewritten by the separator
normalization, so its `path` is not `"old-articles/"` + its relative path
(in which that backslash is not a separator). -/
theorem claim_C1_counterexample :
    (generate_archive_index '/' "/r"
        (FS.dir (Except.ok [("a\\b.txt", FS.file)]))).1 =
      Node.folder "old-articles" [Node.file "a\\b.txt" "old-articles/a/b.txt"] ∧
    "old-articles/a/b.txt" ≠ "old-articles/" ++ joinSep '/' ["a\\b.txt"] := by
  constructor
  · simp +decide [generate_archive_index, scan_directory_ok, List.insertionSort,
      List.orderedInsert, normalizeSlashes, relpath, osJoin]
  · decide

/-- C2: in every folder node of a tree produced by the builder, all
folder-type children precede all file-type children, and each group is in
ascending lexicographic order by name. -/
theorem claim_C2 (sep : Char) (root : String) (fs : FS) :
    treeOrdered (generate_archive_index sep root fs).1 = true := by
  simp only [generate_archive_index]
  exact scan_treeOrdered sep root fs root "old-articles"

/-- C3: `count_files` returns exactly the number of file-type nodes
reachable from the given node — the non-folder entries of `allNodes` —
counting no folder-type node, as the recursive sum over `collectFiles`
confirms. -/
theorem claim_C3 (node : Node) :
    count_files node = ((allNodes node).filter (fun c => !c.isFolder)).length ∧
    count_files node = (collectFiles node).length :=
  ⟨count_files_counts_files node, count_files_eq_collect node⟩

/-- C4: a child directory whose listing raises is emitted as an empty
folder node, its warning is printed, every sibling directory's subtree is
exactly what its own independent scan produces, and the run still
completes, producing output whenever the write succeeds. -/
theorem claim_C4 (sep : Char) (root path name : String)
    (items : List (String × FS)) (d : String) (e : ScanError)
    (hmem : (d, FS.dir (Except.error e)) ∈ items) :
    Node.folder d [] ∈
      ((scan_directory sep root path name (FS.dir (Except.ok items))).1).children ∧
    scanWarning (osJoin sep path d) e ∈
      (scan_directory sep root path name (FS.dir (Except.ok items))).2 ∧
    (∀ it ∈ items, it.2.isDir = true →
      (scan_directory sep root (osJoin sep path it.1) it.1 it.2).1 ∈
        ((scan_directory sep root path name (FS.dir (Except.ok items))).1).children) ∧
    (∀ write outPath, (∀ p c, write p c = Except.ok ()) →
      main_core sep root (FS.dir (Except.ok items)) write outPath =
        Except.ok ("Archive index saved to: " ++ outPath)) := by
  rcases scan_directory_error_isolated sep root path name items d e hmem with ⟨h1, h2, h3⟩
  exact ⟨h1, h2, h3, fun write outPath hw => main_core_ok sep root _ write outPath hw⟩

/-- Witness for C4: a root with an unreadable subdirectory `locked` and a
sibling file. -/
theorem claim_C4_witness :
    Node.folder "locked" [] ∈
      ((scan_directory '/' "/r" "/r" "old-articles"
        (FS.dir (Except.ok [("locked", FS.dir (Except.error ScanError.permission)),
          ("a.txt", FS.file)]))).1).children ∧
    scanWarning (osJoin '/' "/r" "locked") ScanError.permission ∈
      (scan_directory '/' "/r" "/r" "old-articles"
        (FS.dir (Except.ok [("locked", FS.dir (Except.error ScanError.permission)),
          ("a.txt", FS.file)]))).2 := by
  have h := claim_C4 '/' "/r" "/r" "old-articles"
    [("locked", FS.dir (Except.error ScanError.permission)), ("a.txt", FS.file)]
    "locked" ScanError.permission (List.mem_cons_self _ _)
  exact ⟨h.1, h.2.1⟩

/-- C5 (amended): for a root with files `b.txt`, `A.txt` and folders
`Zeta`, `alpha`, the children are `[Zeta, alpha, A.txt, b.txt]`: the
case-sensitive code-point sort places uppercase letters before lowercase,
folders first, both groups independently sorted. -/
theorem claim_C5 :
    (generate_archive_index '/' "/archive"
      (FS.dir (Except.ok
        [("b.txt", FS.file), ("A.txt", FS.file),
         ("Zeta", FS.dir (Except.ok [])), ("alpha", FS.dir (Except.ok []))]))).1 =
    Node.folder "old-articles"
      [Node.folder "Zeta" [], Node.folder "alpha" [],
       Node.file "A.txt" "old-articles/A.txt",
       Node.file "b.txt" "old-articles/b.txt"] := by
  simp +decide [generate_archive_index, scan_directory_ok, List.insertionSort,
    List.orderedInsert, normalizeSlashes, relpath, osJoin]

/-- C5 fails as stated: a case-sensitive ASCII sort places `Zeta`
(uppercase `Z`, code 90) before `alpha` (lowercase `a`, code 97), so the
children do not appear in the claimed order `[alpha, Zeta, A.txt,
b.txt]`. -/
theorem claim_C5_counterexample :
    ((generate_archive_index '/' "/archive"
      (FS.dir (Except.ok
        [("b.txt", FS.file), ("A.txt", FS.file),
         ("Zeta", FS.dir (Except.ok [])), ("alpha", FS.dir (Except.ok []))]))).1).children.map
      Node.name ≠ ["alpha", "Zeta", "A.txt", "b.txt"] := by
  simp +decide [generate_archive_index, scan_directory_ok, List.insertionSort,
    List.orderedInsert, normalizeSlashes, relpath, osJoin, Node.children, Node.name]

/-- C6: entries that are neither directories nor regular files contribute
nothing — removing them from a listing changes neither the built node nor
the warnings. -/
theorem claim_C6 (sep : Char) (root path name : String)
    (items : List (String × FS)) :
    scan_directory sep root path name
        (FS.dir (Except.ok (items.filter (fun it => it.2.isDir || it.2.isFile)))) =
      scan_directory sep root path name (FS.dir (Except.ok items)) :=
  scan_directory_skips_others sep root path name items

/-- C7: the root node carries the fixed label `old-articles` whatever the
scan root is, and an empty root yields exactly the empty labelled
folder. -/
theorem claim_C7 (sep : Char) (root : String) (fs : FS) :
    ((generate_archive_index sep root fs).1).name = "old-articles" ∧
    (generate_archive_index sep root (FS.dir (Except.ok []))).1 =
      Node.folder "old-articles" [] := by
  constructor
  · simp only [generate_archive_index]
    exact scan_directory_name sep root root "old-articles" fs
  · simp only [generate_archive_index]
    rw [scan_directory_ok]
    rfl

/-- C8: a failure to open or write the output propagates unchanged to the
invoker — `save_archive_index` neither retries nor recovers. -/
theorem claim_C8 (write : String → String → Except String Unit)
    (structure_ : Node) (output_path msg : String)
    (h : write output_path (json_dump structure_) = Except.error msg) :
    save_archive_index write structure_ output_path = Except.error msg := by
  rw [save_archive_index, h]

/-- Witness for C8: a write that fails with `disk full`. -/
theorem claim_C8_witness :
    (fun (_ _ : String) => (Except.error "disk full" : Except String Unit))
        "archive-index.json" (json_dump (Node.folder "old-articles" [])) =
      Except.error "disk full" ∧
    save_archive_index (fun _ _ => Except.error "disk full")
        (Node.folder "old-articles" []) "archive-index.json" =
      Except.error "disk full" :=
  ⟨rfl, claim_C8 (fun _ _ => Except.error "disk full")
    (Node.folder "old-articles" []) "archive-index.json" "disk full" rfl⟩

/-- C9: identical internal structures under different scan roots produce
identical trees — the output never embeds the root's path or base name. -/
theorem claim_C9 (sep : Char) (root1 root2 : String) (fs : FS) :
    (generate_archive_index sep root1 fs).1 = (generate_archive_index sep root2 fs).1 := by
  simp only [generate_archive_index]
  have h := scan_root_independent sep root1 root2 fs [] "old-articles"
  simpa only [joinAll, List.foldl_nil] using h

/-- C10: when the root itself passes validation but its listing raises,
the run does not abort: the tree degrades to the empty labelled folder —
exactly as a subtree failure would — and the output file is still
written. -/
theorem claim_C10 (sep : Char) (root : String) (e : ScanError)
    (write : String → String → Except String Unit) (outPath : String)
    (hw : ∀ p c, write p c = Except.ok ()) :
    (generate_archive_index sep root (FS.dir (Except.error e))).1 =
      Node.folder "old-articles" [] ∧
    main_core sep root (FS.dir (Except.error e)) write outPath =
      Except.ok ("Archive index saved to: " ++ outPath) := by
  constructor
  · simp only [generate_archive_index]
    rw [scan_directory]
  · exact main_core_ok sep root _ write outPath hw

/-- Witness for C10: an unreadable root, with a write that succeeds. -/
theorem claim_C10_witness :
    (generate_archive_index '/' "/gone"
        (FS.dir (Except.error ScanError.permission))).1 =
      Node.folder "old-articles" [] ∧
    main_core '/' "/gone" (FS.dir (Except.error ScanError.permission))
        (fun _ _ => Except.ok ()) "archive-index.json" =
      Except.ok ("Archive index saved to: " ++ "archive-index.json") :=
  claim_C10 '/' "/gone" ScanError.permission (fun _ _ => Except.ok ())
    "archive-index.json" (fun _ _ => rfl)
